import Mathlib

/-!
Shallow embedding of the commit-msg hook script `append_jira_issue.py`.
The script reads the current git branch name, extracts a Jira issue key
matching `[A-Z]{2,}-[0-9]+` from it, and rewrites the subject line of the
commit message to contain the key, unless one of the skip conditions holds.

Python strings are modelled as `List Char`; `str.strip`/`str.lstrip` are
modelled over the ASCII whitespace characters they strip.
-/

/-- ASCII uppercase letter: the character class of the project-key part of
the pattern. -/
def isUC (c : Char) : Bool := decide ('A' ≤ c) && decide (c ≤ 'Z')

/-- ASCII digit: the character class of the issue-number part of the
pattern. -/
def isDig (c : Char) : Bool := decide ('0' ≤ c) && decide (c ≤ '9')

/-- Whitespace characters removed by Python's `str.strip` and `str.lstrip`
(ASCII range). -/
def isWS (c : Char) : Bool :=
  c == ' ' || c == '\t' || c == '\n' || c == '\r' || c == '\x0b' || c == '\x0c'

/-- Boolean check that the first list is an initial segment of the second;
models Python's `str.startswith`. -/
def isPrefB : List Char → List Char → Bool
  | [], _ => true
  | _ :: _, [] => false
  | a :: as, b :: bs => a == b && isPrefB as bs

/-- `t` occurs as a contiguous substring of `s`. -/
def Occ (t s : List Char) : Prop := ∃ u v, s = u ++ t ++ v

/-- Number of positions of `s` at which `t` occurs (occurrences may
overlap). -/
def occCount (t : List Char) : List Char → Nat
  | [] => if isPrefB t [] = true then 1 else 0
  | c :: cs => (if isPrefB t (c :: cs) = true then 1 else 0) + occCount t cs

theorem isPrefB_iff : ∀ t s : List Char, isPrefB t s = true ↔ ∃ v, s = t ++ v := by
  intro t
  induction t with
  | nil =>
    intro s
    simp [isPrefB]
  | cons a as ih =>
    intro s
    cases s with
    | nil =>
      simp [isPrefB]
    | cons b bs =>
      constructor
      · intro h
        have h' : (a == b) = true ∧ isPrefB as bs = true := by
          simpa [isPrefB, Bool.and_eq_true] using h
        obtain ⟨v, hv⟩ := (ih bs).1 h'.2
        have hab : a = b := by simpa using h'.1
        subst hab
        exact ⟨v, by rw [hv]; rfl⟩
      · rintro ⟨v, hv⟩
        have hb : b = a := by
          have := congrArg (fun l => List.head? l) hv
          simpa using this
        have hbs : bs = as ++ v := by
          have := congrArg (fun l => List.tail l) hv
          simpa using this
        subst hb
        have : isPrefB as bs = true := (ih bs).2 ⟨v, hbs⟩
        simp [isPrefB, this]

theorem isPrefB_refl_append (t v : List Char) : isPrefB t (t ++ v) = true :=
  (isPrefB_iff t (t ++ v)).2 ⟨v, rfl⟩

theorem isPrefB_length_le {t s : List Char} (h : isPrefB t s = true) :
    t.length ≤ s.length := by
  obtain ⟨v, hv⟩ := (isPrefB_iff t s).1 h
  subst hv
  simp

/-- An occurrence of `t` in `s` is the same as `t` being an initial
segment of some suffix `s.drop p`. -/
theorem occ_iff_drop (t s : List Char) :
    Occ t s ↔ ∃ p, isPrefB t (s.drop p) = true := by
  constructor
  · rintro ⟨u, v, rfl⟩
    refine ⟨u.length, ?_⟩
    rw [List.append_assoc, List.drop_left]
    exact isPrefB_refl_append t v
  · rintro ⟨p, hp⟩
    obtain ⟨v, hv⟩ := (isPrefB_iff _ _).1 hp
    exact ⟨s.take p, v, by rw [List.append_assoc, ← hv, List.take_append_drop]⟩

theorem occ_of_isPrefB {t s : List Char} (h : isPrefB t s = true) : Occ t s :=
  (occ_iff_drop t s).2 ⟨0, by simpa using h⟩

theorem occ_trans {t x y : List Char} (h1 : Occ t x) (h2 : Occ x y) : Occ t y := by
  obtain ⟨u, v, rfl⟩ := h1
  obtain ⟨u', v', rfl⟩ := h2
  exact ⟨u' ++ u, v ++ v', by simp⟩

theorem occ_refl (l : List Char) : Occ l l := ⟨[], [], by simp⟩

theorem occ_append_left {t a : List Char} (h : Occ t a) (b : List Char) :
    Occ t (a ++ b) := by
  obtain ⟨u, v, rfl⟩ := h
  exact ⟨u, v ++ b, by simp⟩

theorem occ_append_right {t b : List Char} (a : List Char) (h : Occ t b) :
    Occ t (a ++ b) := by
  obtain ⟨u, v, rfl⟩ := h
  exact ⟨a ++ u, v, by simp⟩

theorem mem_of_occ {t s : List Char} (h : Occ t s) {c : Char} (hc : c ∈ t) :
    c ∈ s := by
  obtain ⟨u, v, rfl⟩ := h
  simp [hc]

/-- A nonempty pattern cannot be a prefix of a list that is cut by a
character the pattern avoids before the pattern could end. -/
theorem isPrefB_append_cons {t : List Char} (ht : t ≠ []) {c : Char}
    (hc : c ∉ t) (a b : List Char) :
    isPrefB t (a ++ c :: b) = isPrefB t a := by
  induction t generalizing a with
  | nil => cases ht rfl
  | cons x ts ih =>
    cases a with
    | nil =>
      have hxc : (x == c) = false := by
        simp only [beq_eq_false_iff_ne, ne_eq]
        intro h
        exact hc (h ▸ List.mem_cons_self x ts)
      simp [isPrefB, hxc]
    | cons y as =>
      have e1 : isPrefB (x :: ts) ((y :: as) ++ c :: b)
          = (x == y && isPrefB ts (as ++ c :: b)) := rfl
      have e2 : isPrefB (x :: ts) (y :: as) = (x == y && isPrefB ts as) := rfl
      rw [e1, e2]
      by_cases hts : ts = []
      · subst hts
        simp [isPrefB]
      · have hcts : c ∉ ts := fun h => hc (List.mem_cons_of_mem x h)
        rw [ih hts hcts as]

theorem occCount_append_cons {t : List Char} (ht : t ≠ []) {c : Char}
    (hc : c ∉ t) (a b : List Char) :
    occCount t (a ++ c :: b) = occCount t a + occCount t b := by
  induction a with
  | nil =>
    have h0 : isPrefB t [] = false := by
      cases t with
      | nil => cases ht rfl
      | cons x ts => rfl
    have h1 : isPrefB t (c :: b) = isPrefB t [] := isPrefB_append_cons ht hc [] b
    have e0 : occCount t [] = (if isPrefB t [] = true then 1 else 0) := rfl
    have e1 : occCount t (c :: b)
        = (if isPrefB t (c :: b) = true then 1 else 0) + occCount t b := rfl
    rw [List.nil_append, e1, h1, h0, e0, h0]
  | cons y as ih =>
    have h1 : isPrefB t ((y :: as) ++ c :: b) = isPrefB t (y :: as) :=
      isPrefB_append_cons ht hc (y :: as) b
    have e1 : occCount t ((y :: as) ++ c :: b)
        = (if isPrefB t ((y :: as) ++ c :: b) = true then 1 else 0)
          + occCount t (as ++ c :: b) := rfl
    have e2 : occCount t (y :: as)
        = (if isPrefB t (y :: as) = true then 1 else 0) + occCount t as := rfl
    rw [e1, h1, e2, ih]
    omega

theorem occCount_eq_zero_of_short {t : List Char} (s : List Char)
    (h : s.length < t.length) : occCount t s = 0 := by
  induction s with
  | nil =>
    have : isPrefB t [] = false := by
      cases t with
      | nil => simp at h
      | cons x ts => rfl
    simp [occCount, this]
  | cons c cs ih =>
    have hpre : isPrefB t (c :: cs) = false := by
      cases hb : isPrefB t (c :: cs) with
      | false => rfl
      | true =>
        have := isPrefB_length_le hb
        omega
    have hlt : cs.length < t.length := by
      simp at h
      omega
    have e1 : occCount t (c :: cs)
        = (if isPrefB t (c :: cs) = true then 1 else 0) + occCount t cs := rfl
    rw [e1, hpre, ih hlt]
    simp

theorem occCount_self {t : List Char} (ht : t ≠ []) : occCount t t = 1 := by
  cases t with
  | nil => cases ht rfl
  | cons c cs =>
    have h1 : isPrefB (c :: cs) (c :: cs) = true := by
      simpa using isPrefB_refl_append (c :: cs) []
    have h2 : occCount (c :: cs) cs = 0 :=
      occCount_eq_zero_of_short cs (by simp)
    have e1 : occCount (c :: cs) (c :: cs)
        = (if isPrefB (c :: cs) (c :: cs) = true then 1 else 0)
          + occCount (c :: cs) cs := rfl
    rw [e1, if_pos h1, h2]

theorem occCount_pos_iff {t : List Char} (ht : t ≠ []) (s : List Char) :
    0 < occCount t s ↔ Occ t s := by
  constructor
  · intro h
    induction s with
    | nil =>
      have h0 : isPrefB t [] = false := by
        cases t with
        | nil => cases ht rfl
        | cons x ts => rfl
      simp [occCount, h0] at h
    | cons c cs ih =>
      by_cases hp : isPrefB t (c :: cs) = true
      · exact occ_of_isPrefB hp
      · have e1 : occCount t (c :: cs)
            = (if isPrefB t (c :: cs) = true then 1 else 0) + occCount t cs := rfl
        rw [e1, if_neg hp] at h
        have : 0 < occCount t cs := by omega
        obtain ⟨u, v, hv⟩ := ih this
        exact ⟨c :: u, v, by rw [hv]; rfl⟩
  · rintro ⟨u, v, rfl⟩
    induction u with
    | nil =>
      have hpre : isPrefB t (t ++ v) = true := isPrefB_refl_append t v
      cases htv : t ++ v with
      | nil =>
        cases t with
        | nil => cases ht rfl
        | cons x ts => simp at htv
      | cons c cs =>
        have e1 : occCount t (c :: cs)
            = (if isPrefB t (c :: cs) = true then 1 else 0) + occCount t cs := rfl
        rw [htv] at hpre
        rw [List.nil_append, htv, e1, if_pos hpre]
        omega
    | cons y us ih =>
      have e1 : occCount t ((y :: us) ++ t ++ v)
          = (if isPrefB t ((y :: us) ++ t ++ v) = true then 1 else 0)
            + occCount t (us ++ t ++ v) := rfl
      rw [e1]
      omega

theorem occCount_eq_zero_iff {t : List Char} (ht : t ≠ []) (s : List Char) :
    occCount t s = 0 ↔ ¬ Occ t s := by
  rw [← occCount_pos_iff ht s]
  omega

/-! ### takeWhile / dropWhile helpers -/

theorem takeWhile_stop {p : Char → Bool} :
    ∀ (L : List Char), (∀ c ∈ L, p c = true) → ∀ {x : Char}, p x = false →
      ∀ (r : List Char), (L ++ x :: r).takeWhile p = L := by
  intro L
  induction L with
  | nil =>
    intro _ x hx r
    simp [List.takeWhile_cons, hx]
  | cons a as ih =>
    intro hall x hx r
    have ha : p a = true := hall a (List.mem_cons_self a as)
    have has : ∀ c ∈ as, p c = true := fun c hc => hall c (List.mem_cons_of_mem a hc)
    simp [List.takeWhile_cons, ha, ih has hx r]

theorem dropWhile_stop {p : Char → Bool} :
    ∀ (L : List Char), (∀ c ∈ L, p c = true) → ∀ {x : Char}, p x = false →
      ∀ (r : List Char), (L ++ x :: r).dropWhile p = x :: r := by
  intro L
  induction L with
  | nil =>
    intro _ x hx r
    simp [List.dropWhile_cons, hx]
  | cons a as ih =>
    intro hall x hx r
    have ha : p a = true := hall a (List.mem_cons_self a as)
    have has : ∀ c ∈ as, p c = true := fun c hc => hall c (List.mem_cons_of_mem a hc)
    simp [List.dropWhile_cons, ha, ih has hx r]

theorem drop_takeWhile_length {p : Char → Bool} :
    ∀ l : List Char, l.drop (l.takeWhile p).length = l.dropWhile p := by
  intro l
  induction l with
  | nil => rfl
  | cons c cs ih =>
    by_cases hc : p c = true
    · simp [List.takeWhile_cons, List.dropWhile_cons, hc, ih]
    · have hc' : p c = false := by
        cases h : p c
        · rfl
        · cases hc h
      simp [List.takeWhile_cons, List.dropWhile_cons, hc']

/-! ### The issue-key extractor (`extract_jira_issue`) -/

/-- A string of the shape matched by the pattern `[A-Z]{2,}-[0-9]+`:
at least two ASCII uppercase letters, a hyphen, at least one ASCII digit. -/
def IsIssue (t : List Char) : Prop :=
  ∃ L D : List Char, t = L ++ '-' :: D ∧ (∀ c ∈ L, isUC c = true) ∧
    2 ≤ L.length ∧ (∀ c ∈ D, isDig c = true) ∧ 1 ≤ D.length

/-- One attempt of the regex engine to match `[A-Z]{2,}-[0-9]+` at the start
of `s`: greedily take the maximal run of uppercase letters, require at
least two of them, a hyphen, and a nonempty maximal run of digits. -/
def matchHere (s : List Char) : Option (List Char) :=
  if (s.takeWhile isUC).length < 2 then none
  else
    match s.drop (s.takeWhile isUC).length with
    | '-' :: rest =>
      match rest.takeWhile isDig with
      | [] => none
      | d :: ds => some (s.takeWhile isUC ++ '-' :: d :: ds)
    | _ => none

/-- Scan of `re.search`: try to match at position 0, then at position 1, …
returning the first successful match. -/
def searchIssue : List Char → Option (List Char)
  | [] => none
  | c :: cs =>
    match matchHere (c :: cs) with
    | some t => some t
    | none => searchIssue cs

/-- `extract_jira_issue` from the script: `re.search` for
`[A-Z]{2,}-[0-9]+` in `content`, returning the matched text if any. -/
def extract_jira_issue (content : List Char) : Option (List Char) :=
  searchIssue content

theorem matchHere_some {s t : List Char} (h : matchHere s = some t) :
    IsIssue t ∧ ∃ v, s = t ++ v := by
  unfold matchHere at h
  split at h
  · cases h
  · rename_i hlen
    split at h
    · rename_i rest hdrop
      split at h
      · cases h
      · rename_i d ds htw
        injection h with ht
        subst ht
        constructor
        · refine ⟨s.takeWhile isUC, d :: ds, rfl, ?_, ?_, ?_, ?_⟩
          · intro c hc
            exact List.mem_takeWhile_imp hc
          · omega
          · intro c hc
            rw [← htw] at hc
            exact List.mem_takeWhile_imp hc
          · simp
        · refine ⟨rest.dropWhile isDig, ?_⟩
          have hdw : s.dropWhile isUC = '-' :: rest := by
            rw [← drop_takeWhile_length s]
            exact hdrop
          have hs : s = s.takeWhile isUC ++ '-' :: rest := by
            conv_lhs => rw [← List.takeWhile_append_dropWhile isUC s]
            rw [hdw]
          have hrest : rest = (d :: ds) ++ rest.dropWhile isDig := by
            conv_lhs => rw [← List.takeWhile_append_dropWhile isDig rest]
            rw [htw]
          calc s = s.takeWhile isUC ++ '-' :: rest := hs
            _ = s.takeWhile isUC ++ '-' :: ((d :: ds) ++ rest.dropWhile isDig) := by
                rw [← hrest]
            _ = (s.takeWhile isUC ++ '-' :: d :: ds) ++ rest.dropWhile isDig := by
                simp
    · cases h

theorem matchHere_pos {L D : List Char} (v : List Char)
    (hLuc : ∀ c ∈ L, isUC c = true) (hL2 : 2 ≤ L.length)
    (hDdig : ∀ c ∈ D, isDig c = true) (hD1 : 1 ≤ D.length) :
    matchHere (L ++ '-' :: (D ++ v)) ≠ none := by
  unfold matchHere
  have htwL : (L ++ '-' :: (D ++ v)).takeWhile isUC = L :=
    takeWhile_stop L hLuc (by decide) (D ++ v)
  rw [htwL, if_neg (by omega), List.drop_left]
  split
  · rename_i rest heq
    split
    · rename_i htw
      exfalso
      cases D with
      | nil => simp at hD1
      | cons d D' =>
        have hd : isDig d = true := hDdig d (List.mem_cons_self d D')
        injection heq with h1 h2
        rw [← h2] at htw
        simp [List.takeWhile_cons, hd] at htw
    · simp
  · rename_i hcon
    exact absurd rfl (hcon (D ++ v))

theorem matchHere_none_no_match {s : List Char} (h : matchHere s = none) :
    ¬ ∃ t, IsIssue t ∧ ∃ v, s = t ++ v := by
  rintro ⟨t, ⟨L, D, rfl, hLuc, hL2, hDdig, hD1⟩, v, rfl⟩
  have hshape : (L ++ '-' :: D) ++ v = L ++ '-' :: (D ++ v) := by simp
  rw [hshape] at h
  exact matchHere_pos v hLuc hL2 hDdig hD1 h

theorem matchHere_nil : matchHere [] = none := rfl

theorem searchIssue_none {s : List Char} (h : searchIssue s = none) :
    ∀ p, matchHere (s.drop p) = none := by
  induction s with
  | nil =>
    intro p
    cases p <;> exact matchHere_nil
  | cons c cs ih =>
    unfold searchIssue at h
    split at h
    · cases h
    · rename_i hmh
      intro p
      cases p with
      | zero => exact hmh
      | succ q => exact ih h q

theorem searchIssue_some {s r : List Char} (h : searchIssue s = some r) :
    ∃ p, matchHere (s.drop p) = some r ∧ ∀ q, q < p → matchHere (s.drop q) = none := by
  induction s with
  | nil => simp [searchIssue] at h
  | cons c cs ih =>
    unfold searchIssue at h
    split at h
    · rename_i t hmh
      injection h with ht
      subst ht
      exact ⟨0, hmh, fun q hq => absurd hq (by omega)⟩
    · rename_i hmh
      obtain ⟨p, hp, hmin⟩ := ih h
      refine ⟨p + 1, hp, ?_⟩
      intro q hq
      cases q with
      | zero => exact hmh
      | succ q' => exact hmin q' (by omega)

theorem extract_none_iff (s : List Char) :
    extract_jira_issue s = none ↔ ¬ ∃ t, IsIssue t ∧ Occ t s := by
  constructor
  · intro h
    rintro ⟨t, hIt, hOcc⟩
    obtain ⟨p, hp⟩ := (occ_iff_drop t s).1 hOcc
    obtain ⟨v, hv⟩ := (isPrefB_iff _ _).1 hp
    exact matchHere_none_no_match (searchIssue_none h p) ⟨t, hIt, v, hv⟩
  · intro hno
    cases hE : extract_jira_issue s with
    | none => rfl
    | some r =>
      exfalso
      obtain ⟨p, hp, _⟩ := searchIssue_some hE
      obtain ⟨hIr, v, hv⟩ := matchHere_some hp
      refine hno ⟨r, hIr, ?_⟩
      exact (occ_iff_drop r s).2 ⟨p, (isPrefB_iff _ _).2 ⟨v, hv⟩⟩

theorem extract_some {s r : List Char} (h : extract_jira_issue s = some r) :
    IsIssue r ∧ ∃ p, isPrefB r (s.drop p) = true ∧
      ∀ q t, IsIssue t → isPrefB t (s.drop q) = true → p ≤ q := by
  obtain ⟨p, hp, hmin⟩ := searchIssue_some h
  obtain ⟨hIr, v, hv⟩ := matchHere_some hp
  refine ⟨hIr, p, (isPrefB_iff _ _).2 ⟨v, hv⟩, ?_⟩
  intro q t hIt hq
  by_contra hlt
  push_neg at hlt
  obtain ⟨w, hw⟩ := (isPrefB_iff _ _).1 hq
  exact matchHere_none_no_match (hmin q hlt) ⟨t, hIt, w, hw⟩

theorem occ_extract_ne_none {t s : List Char} (hIt : IsIssue t) (hOcc : Occ t s) :
    extract_jira_issue s ≠ none :=
  fun h => ((extract_none_iff s).1 h) ⟨t, hIt, hOcc⟩

/-- Claim C2: `extract_jira_issue` returns `none` iff no substring of the
input matches `[A-Z]{2,}-[0-9]+`; otherwise it returns a matching
substring occurring at the leftmost position at which any match begins. -/
theorem claim2 (s : List Char) :
    (extract_jira_issue s = none ↔ ¬ ∃ t, IsIssue t ∧ Occ t s)
    ∧ ∀ r, extract_jira_issue s = some r →
        IsIssue r ∧ ∃ p, isPrefB r (s.drop p) = true ∧
          ∀ q t, IsIssue t → isPrefB t (s.drop q) = true → p ≤ q :=
  ⟨extract_none_iff s, fun _ h => extract_some h⟩

/-- Witness for C2 at a concrete input: in `"xAB-12y"` the extractor finds
`"AB-12"`, a pattern match at the leftmost matching position. -/
theorem claim2_witness :
    IsIssue [ 'A', 'B', '-', '1', '2' ] ∧
      ∃ p, isPrefB [ 'A', 'B', '-', '1', '2' ]
          (List.drop p [ 'x', 'A', 'B', '-', '1', '2', 'y' ]) = true ∧
        ∀ q t, IsIssue t →
          isPrefB t (List.drop q [ 'x', 'A', 'B', '-', '1', '2', 'y' ]) = true → p ≤ q :=
  (claim2 [ 'x', 'A', 'B', '-', '1', '2', 'y' ]).2 [ 'A', 'B', '-', '1', '2' ] rfl

/-! ### Python `strip` and the subject/body split of `append_jira_issue` -/

/-- Python `str.lstrip()`. -/
def lstripWS (l : List Char) : List Char := l.dropWhile isWS

/-- Python `str.rstrip()`. -/
def rstripWS (l : List Char) : List Char := (l.reverse.dropWhile isWS).reverse

/-- Python `str.strip()`. -/
def pyStrip (l : List Char) : List Char := rstripWS (lstripWS l)

/-- `lines[0]` of `msg.strip().split('\n', 1)`: the subject line. -/
def pySubject (msg : List Char) : List Char :=
  (pyStrip msg).takeWhile (fun c => c != '\n')

/-- `lines[1]` of `msg.strip().split('\n', 1)` when a second part exists:
everything after the first line break of the stripped message. -/
def pyRest (msg : List Char) : List Char :=
  ((pyStrip msg).dropWhile (fun c => c != '\n')).drop 1

/-- Whether `msg.strip().split('\n', 1)` has a second part. -/
def hasSecond (msg : List Char) : Bool :=
  (pyStrip msg).any (fun c => c == '\n')

/-- The `body` string computed by `append_jira_issue`:
`"\n\n" + lines[1].strip()` when there is a nonempty trimmed remainder,
else the empty string. -/
def pyBody (msg : List Char) : List Char :=
  if hasSecond msg = true ∧ pyStrip (pyRest msg) ≠ [] then
    '\n' :: '\n' :: pyStrip (pyRest msg)
  else []

/-! ### The conventional-commit matcher -/

/-- The closed set of conventional-commit types of the regex alternation. -/
def convTypes : List (List Char) :=
  [ [ 'b', 'u', 'i', 'l', 'd' ],
    [ 'c', 'h', 'o', 'r', 'e' ],
    [ 'c', 'i' ],
    [ 'd', 'o', 'c', 's' ],
    [ 'f', 'e', 'a', 't' ],
    [ 'f', 'i', 'x' ],
    [ 'p', 'e', 'r', 'f' ],
    [ 'r', 'e', 'f', 'a', 'c', 't', 'o', 'r' ],
    [ 'r', 'e', 'v', 'e', 'r', 't' ],
    [ 's', 't', 'y', 'l', 'e' ],
    [ 't', 'e', 's', 't' ] ]

/-- After an opening parenthesis, the regex `\(.*\))?:` needs some `.*`
(which cannot cross a line break) followed by `):`.  This scan decides
whether such a continuation exists. -/
def scopeTail : List Char → Bool
  | [] => false
  | [_] => false
  | c :: d :: t =>
    if c = ')' ∧ d = ':' then true
    else if c = '\n' then false
    else scopeTail (d :: t)

/-- Whether `(\(.*\))?:` matches at the start of `rest` (what remains of
the subject after a conventional-commit type). -/
def afterType (rest : List Char) : Bool :=
  match rest with
  | [] => false
  | c :: t => if c = ':' then true else if c = '(' then scopeTail t else false

/-- Truthiness of `conv_commit_pattern.match(subject)`: some type of the
closed set starts the subject and is followed by an optional parenthesized
scope and a colon. -/
def matchesConv (subject : List Char) : Bool :=
  convTypes.any (fun ty => isPrefB ty subject && afterType (subject.drop ty.length))

/-- `subject[:colon_index + 1]` for the first colon of the subject (only
used by `append_jira_issue` when the pattern matched, which guarantees a
colon exists). -/
def convPfx (subject : List Char) : List Char :=
  subject.takeWhile (fun c => c != ':') ++ [ ':' ]

/-- `subject[colon_index + 1:].lstrip()`: the description after the first
colon, with leading whitespace removed. -/
def convDesc (subject : List Char) : List Char :=
  ((subject.dropWhile (fun c => c != ':')).drop 1).dropWhile isWS

/-- The new subject line computed by `append_jira_issue`. -/
def new_subject (subject issue : List Char) : List Char :=
  if matchesConv subject = true then
    convPfx subject ++ ' ' :: issue ++ ' ' :: convDesc subject
  else
    [ 'c', 'h', 'o', 'r', 'e', ':' ] ++ ' ' :: issue ++ ' ' :: subject

/-- `append_jira_issue(msg, issue)` from the script: split the stripped
message into subject and body, rewrite the subject, reassemble. -/
def append_jira_issue (msg issue : List Char) : List Char :=
  new_subject (pySubject msg) issue ++ pyBody msg

/-! ### The file pipeline: comment stripping and the entry point -/

/-- Split a file's text into its lines, each keeping its trailing line
break (the final line may lack one), as Python file iteration yields them. -/
def fileLines : List Char → List (List Char)
  | [] => []
  | c :: cs =>
    if c = '\n' then [ '\n' ] :: fileLines cs
    else
      match fileLines cs with
      | [] => [ [ c ] ]
      | l :: ls => (c :: l) :: ls

/-- `get_commit_msg`: the file contents with the lines starting with `#`
removed. -/
def get_commit_msg (contents : List Char) : List Char :=
  ((fileLines contents).filter (fun l => !(isPrefB [ '#' ] l))).flatten

/-- Outcome of the external `git symbolic-ref --short HEAD` call:
either decoded standard output, or any failure of the subprocess
(nonzero exit, not a repository, decode error, …). -/
inductive CmdResult where
  | ok : List Char → CmdResult
  | failure : CmdResult

/-- `run_command`: the stripped standard output on success, and the empty
string on any failure (the bare `except` catches everything). -/
def run_command (r : CmdResult) : List Char :=
  match r with
  | CmdResult.ok out => pyStrip out
  | CmdResult.failure => []

/-- `get_branch_name`: delegates to `run_command`. -/
def get_branch_name (r : CmdResult) : List Char := run_command r

/-- `main`, as a function of the branch name and the commit-message file
contents; returns the exit code and the resulting file contents (equal to
the input contents whenever the script does not write). -/
def mainRun (branch contents : List Char) : Nat × List Char :=
  match extract_jira_issue branch with
  | none => (0, contents)
  | some issue =>
    if isPrefB [ 'M', 'e', 'r', 'g', 'e', ' ' ] (get_commit_msg contents) = true then
      (0, contents)
    else
      match extract_jira_issue (get_commit_msg contents) with
      | some _ => (0, contents)
      | none => (0, append_jira_issue (get_commit_msg contents) issue)

/-! ### Declarative form of the conventional-commit pattern -/

/-- Declarative reading of the pattern
`^(build|chore|ci|docs|feat|fix|perf|refactor|revert|style|test)(\(.*\))?:`:
a type of the closed set starts the subject, followed either directly by a
colon, or by a parenthesized scope (whose interior cannot contain a line
break) and then a colon. -/
def ConvMatchP (subject : List Char) : Prop :=
  ∃ ty, ty ∈ convTypes ∧ ∃ rest, subject = ty ++ rest ∧
    ((∃ r, rest = ':' :: r) ∨
      ∃ u v, rest = '(' :: (u ++ ')' :: ':' :: v) ∧ '\n' ∉ u)

theorem scopeTail_iff : ∀ t : List Char,
    scopeTail t = true ↔ ∃ u v, t = u ++ ')' :: ':' :: v ∧ '\n' ∉ u := by
  intro t
  induction t with
  | nil =>
    constructor
    · intro h
      cases h
    · rintro ⟨u, v, heq, _⟩
      have := congrArg List.length heq
      simp at this
      omega
  | cons c t ih =>
    cases t with
    | nil =>
      constructor
      · intro h
        cases h
      · rintro ⟨u, v, heq, _⟩
        have := congrArg List.length heq
        simp at this
        omega
    | cons d t' =>
      by_cases h1 : c = ')' ∧ d = ':'
      · constructor
        · intro _
          exact ⟨[], t', by rw [h1.1, h1.2]; rfl, by simp⟩
        · intro _
          simp [scopeTail, h1]
      · by_cases h2 : c = '\n'
        · have e : scopeTail (c :: d :: t') = false := by
            simp [scopeTail, h1, h2]
          rw [e]
          constructor
          · intro h
            cases h
          · rintro ⟨u, v, heq, hnu⟩
            cases u with
            | nil =>
              rw [List.nil_append] at heq
              injection heq with hc _
              exact absurd ⟨hc, by
                subst h2
                exact absurd hc (by decide)⟩ h1
            | cons x u' =>
              rw [List.cons_append] at heq
              injection heq with hc _
              have hmem : '\n' ∈ x :: u' := by
                rw [← hc, h2]
                exact List.mem_cons_self '\n' u'
              exact absurd hmem hnu
        · have e : scopeTail (c :: d :: t') = scopeTail (d :: t') := by
            simp [scopeTail, h1, h2]
          rw [e, ih]
          constructor
          · rintro ⟨u, v, heq, hnu⟩
            refine ⟨c :: u, v, by rw [List.cons_append, heq], ?_⟩
            intro hmem
            rcases List.mem_cons.1 hmem with hc | hu
            · exact h2 hc.symm
            · exact hnu hu
          · rintro ⟨u, v, heq, hnu⟩
            cases u with
            | nil =>
              rw [List.nil_append] at heq
              injection heq with hc rest1
              injection rest1 with hd _
              exact absurd ⟨hc, hd⟩ h1
            | cons x u' =>
              rw [List.cons_append] at heq
              injection heq with hc rest1
              refine ⟨u', v, rest1, fun hmem => hnu (List.mem_cons_of_mem x hmem)⟩

theorem afterType_iff (rest : List Char) :
    afterType rest = true ↔
      ((∃ r, rest = ':' :: r) ∨ ∃ t', rest = '(' :: t' ∧ scopeTail t' = true) := by
  cases rest with
  | nil => simp [afterType]
  | cons c t =>
    by_cases h1 : c = ':'
    · subst h1
      simp [afterType]
    · by_cases h2 : c = '('
      · subst h2
        simp [afterType]
      · simp [afterType, h1, h2]

theorem matchesConv_iff (subject : List Char) :
    matchesConv subject = true ↔ ConvMatchP subject := by
  unfold matchesConv ConvMatchP
  rw [List.any_eq_true]
  constructor
  · rintro ⟨ty, hty, hp⟩
    rw [Bool.and_eq_true] at hp
    obtain ⟨v, hv⟩ := (isPrefB_iff _ _).1 hp.1
    refine ⟨ty, hty, v, hv, ?_⟩
    have hdrop : subject.drop ty.length = v := by rw [hv, List.drop_left]
    have h2 := hp.2
    rw [hdrop] at h2
    rcases (afterType_iff v).1 h2 with ⟨r, hr⟩ | ⟨t', ht', hsc⟩
    · exact Or.inl ⟨r, hr⟩
    · obtain ⟨u, w, htw, hnu⟩ := (scopeTail_iff t').1 hsc
      exact Or.inr ⟨u, w, by rw [ht', htw], hnu⟩
  · rintro ⟨ty, hty, rest, hrest, hcase⟩
    refine ⟨ty, hty, ?_⟩
    rw [Bool.and_eq_true]
    refine ⟨(isPrefB_iff _ _).2 ⟨rest, hrest⟩, ?_⟩
    have hdrop : subject.drop ty.length = rest := by rw [hrest, List.drop_left]
    rw [hdrop]
    apply (afterType_iff rest).2
    rcases hcase with ⟨r, hr⟩ | ⟨u, v, huv, hnu⟩
    · exact Or.inl ⟨r, hr⟩
    · exact Or.inr ⟨u ++ ')' :: ':' :: v, huv, (scopeTail_iff _).2 ⟨u, v, rfl, hnu⟩⟩

theorem bne_colon_of_notin {a : List Char} (h : ':' ∉ a) :
    ∀ c ∈ a, (c != ':') = true := by
  intro c hc
  simp only [bne_iff_ne, ne_eq]
  intro hcc
  exact h (hcc ▸ hc)

theorem convPfx_split {a : List Char} (b : List Char) (h : ':' ∉ a) :
    convPfx (a ++ ':' :: b) = a ++ [ ':' ] := by
  unfold convPfx
  rw [takeWhile_stop a (bne_colon_of_notin h) (by decide) b]

theorem convDesc_split {a : List Char} (b : List Char) (h : ':' ∉ a) :
    convDesc (a ++ ':' :: b) = b.dropWhile isWS := by
  unfold convDesc
  rw [dropWhile_stop a (bne_colon_of_notin h) (by decide) b]
  rfl

/-- Claim C1: for every message and issue key, if the subject matches the
conventional-commit pattern then the new subject is the part of the
subject up to and including its first colon, a space, the issue key, a
space, and the left-trimmed remainder; otherwise the new subject is
`"chore: "`, the issue key, a space, and the original subject.  (The
first colon is characterized by the decomposition `a ++ ':' :: b` with
`':' ∉ a`.) -/
theorem claim1 (msg issue : List Char) :
    (∀ a b, ConvMatchP (pySubject msg) → pySubject msg = a ++ ':' :: b → ':' ∉ a →
        new_subject (pySubject msg) issue
          = (a ++ [ ':' ]) ++ ' ' :: issue ++ ' ' :: b.dropWhile isWS)
    ∧ (¬ ConvMatchP (pySubject msg) →
        new_subject (pySubject msg) issue
          = [ 'c', 'h', 'o', 'r', 'e', ':', ' ' ] ++ issue ++ ' ' :: pySubject msg) := by
  constructor
  · intro a b hconv hsplit hnotin
    have hm : matchesConv (pySubject msg) = true := (matchesConv_iff _).2 hconv
    unfold new_subject
    rw [if_pos hm, hsplit, convPfx_split b hnotin, convDesc_split b hnotin]
  · intro hnc
    have hm : matchesConv (pySubject msg) = false := by
      cases h : matchesConv (pySubject msg)
      · rfl
      · exact absurd ((matchesConv_iff _).1 h) hnc
    unfold new_subject
    rw [if_neg (by simp [hm])]
    rfl

/-- Witness for C1 at the spec's own example: subject `"feat: x"` with
issue `"AB-1"` is rewritten with the key inserted after `"feat:"`. -/
theorem claim1_witness :
    new_subject (pySubject [ 'f', 'e', 'a', 't', ':', ' ', 'x' ]) [ 'A', 'B', '-', '1' ]
      = ([ 'f', 'e', 'a', 't' ] ++ [ ':' ]) ++ ' ' :: [ 'A', 'B', '-', '1' ]
          ++ ' ' :: List.dropWhile isWS [ ' ', 'x' ] :=
  (claim1 [ 'f', 'e', 'a', 't', ':', ' ', 'x' ] [ 'A', 'B', '-', '1' ]).1
    [ 'f', 'e', 'a', 't' ] [ ' ', 'x' ]
    ⟨[ 'f', 'e', 'a', 't' ], by decide, [ ':', ' ', 'x' ], by decide,
      Or.inl ⟨[ ' ', 'x' ], rfl⟩⟩
    (by decide) (by decide)

theorem takeWhile_all {p : Char → Bool} :
    ∀ l : List Char, (∀ c ∈ l, p c = true) → l.takeWhile p = l := by
  intro l
  induction l with
  | nil => intro _; rfl
  | cons c cs ih =>
    intro h
    have hc : p c = true := h c (List.mem_cons_self c cs)
    simp [List.takeWhile_cons, hc, ih (fun d hd => h d (List.mem_cons_of_mem c hd))]

theorem bne_of_notin {x : Char} {a : List Char} (h : x ∉ a) :
    ∀ c ∈ a, (c != x) = true := by
  intro c hc
  simp only [bne_iff_ne, ne_eq]
  intro hcc
  exact h (hcc ▸ hc)

/-- Counterexample to C5 as stated: for an input whose first character is
a line break, the claim says the subject is empty, but the code strips the
message first and takes `"fix"` as the subject. -/
theorem claim5_counterexample :
    pySubject [ '\n', 'f', 'i', 'x' ] = [ 'f', 'i', 'x' ]
    ∧ List.takeWhile (fun c => c != '\n') [ '\n', 'f', 'i', 'x' ] = [] := by
  decide

/-- Claim C5 (amended): the subject is the portion of the *stripped* input
up to its first line break, and the body is the remainder after that line
break with surrounding whitespace trimmed (empty when only whitespace
remains); when the stripped input has no line break the subject is the
whole stripped input and the body is empty. -/
theorem claim5 (msg : List Char) :
    ('\n' ∉ pyStrip msg → pySubject msg = pyStrip msg ∧ pyBody msg = [])
    ∧ (∀ a b, pyStrip msg = a ++ '\n' :: b → '\n' ∉ a →
        pySubject msg = a
        ∧ pyBody msg = (if pyStrip b = [] then [] else '\n' :: '\n' :: pyStrip b)) := by
  constructor
  · intro h
    have hsub : pySubject msg = pyStrip msg :=
      takeWhile_all (pyStrip msg) (bne_of_notin h)
    have hhs : hasSecond msg = false := by
      cases hb : hasSecond msg with
      | false => rfl
      | true =>
        exfalso
        unfold hasSecond at hb
        obtain ⟨x, hx, hx'⟩ := List.any_eq_true.1 hb
        have : x = '\n' := by simpa using hx'
        exact h (this ▸ hx)
    refine ⟨hsub, ?_⟩
    unfold pyBody
    rw [if_neg]
    intro hcon
    rw [hhs] at hcon
    cases hcon.1
  · intro a b heq hnotin
    have h1 : pySubject msg = a := by
      unfold pySubject
      rw [heq, takeWhile_stop a (bne_of_notin hnotin) (by decide) b]
    have h2 : pyRest msg = b := by
      unfold pyRest
      rw [heq, dropWhile_stop a (bne_of_notin hnotin) (by decide) b]
      rfl
    have hhs : hasSecond msg = true := by
      unfold hasSecond
      rw [heq]
      exact List.any_eq_true.2 ⟨'\n', by simp, by simp⟩
    refine ⟨h1, ?_⟩
    unfold pyBody
    rw [h2]
    by_cases hb : pyStrip b = []
    · rw [if_neg (fun hcon => hcon.2 hb), if_pos hb]
    · rw [if_pos ⟨hhs, hb⟩, if_neg hb]

/-- Witness for C5 (amended) at `"a\nb"`: subject `"a"`, body from `"b"`. -/
theorem claim5_witness :
    pySubject [ 'a', '\n', 'b' ] = [ 'a' ]
    ∧ pyBody [ 'a', '\n', 'b' ]
        = (if pyStrip [ 'b' ] = [] then [] else '\n' :: '\n' :: pyStrip [ 'b' ]) :=
  (claim5 [ 'a', '\n', 'b' ]).2 [ 'a' ] [ 'b' ] (by decide) (by decide)

/-! ### The rewritten message never ends in a line break (C9) -/

theorem getLast?_cons_ne (c : Char) {l : List Char} (h : l ≠ []) :
    (c :: l).getLast? = l.getLast? := by
  cases l with
  | nil => cases h rfl
  | cons d ds => exact List.getLast?_cons_cons

theorem getLast?_append_ne (a : List Char) {b : List Char} (hb : b ≠ []) :
    (a ++ b).getLast? = b.getLast? := by
  induction a with
  | nil => rfl
  | cons x as ih =>
    rw [List.cons_append]
    have hne : as ++ b ≠ [] := by
      intro hcon
      exact hb (List.append_eq_nil.1 hcon).2
    rw [getLast?_cons_ne x hne, ih]

theorem mem_of_getLast?_eq {l : List Char} {c : Char} (h : l.getLast? = some c) :
    c ∈ l := by
  induction l with
  | nil => cases h
  | cons a as ih =>
    cases as with
    | nil =>
      have : a = c := by simpa using h
      simp [this]
    | cons b bs =>
      rw [List.getLast?_cons_cons] at h
      exact List.mem_cons_of_mem a (ih h)

theorem mem_of_mem_dropWhile {p : Char → Bool} {l : List Char} {c : Char}
    (h : c ∈ l.dropWhile p) : c ∈ l := by
  rw [← List.takeWhile_append_dropWhile p l]
  exact List.mem_append_right _ h

/-- The head of `dropWhile p l` fails `p`. -/
theorem dropWhile_head_false {p : Char → Bool} :
    ∀ {l : List Char} {c : Char}, (l.dropWhile p).head? = some c → p c = false := by
  intro l
  induction l with
  | nil => intro c h; cases h
  | cons a as ih =>
    intro c h
    by_cases ha : p a = true
    · rw [List.dropWhile_cons, if_pos ha] at h
      exact ih h
    · have ha' : p a = false := by
        cases hb : p a
        · rfl
        · cases ha hb
      rw [List.dropWhile_cons, if_neg (by simp [ha'])] at h
      have : a = c := by simpa using h
      rw [← this]
      exact ha'

/-- A nonempty result of `pyStrip` ends in a non-whitespace character. -/
theorem pyStrip_getLast_not_ws {x : List Char} {c : Char}
    (h : (pyStrip x).getLast? = some c) : isWS c = false := by
  unfold pyStrip rstripWS at h
  rw [List.getLast?_reverse] at h
  exact dropWhile_head_false h

/-- Every character of the subject line differs from a line break. -/
theorem pySubject_no_nl {msg : List Char} {c : Char} (h : c ∈ pySubject msg) :
    c ≠ '\n' := by
  have := List.mem_takeWhile_imp h
  simpa [bne_iff_ne] using this

theorem mem_convDesc_subject {S : List Char} {c : Char} (h : c ∈ convDesc S) :
    c ∈ S := by
  unfold convDesc at h
  exact mem_of_mem_dropWhile (List.mem_of_mem_drop (mem_of_mem_dropWhile h))

/-- Claim C9: the string returned by `append_jira_issue` never ends with a
line break (the message is whitespace-stripped before splitting, and the
reassembled message ends either in a stripped body, a subject character,
or an inserted space). -/
theorem claim9 (msg issue : List Char) :
    ((append_jira_issue msg issue).getLast? == some '\n') = false := by
  unfold append_jira_issue pyBody
  by_cases hB : hasSecond msg = true ∧ pyStrip (pyRest msg) ≠ []
  · rw [if_pos hB]
    have h1 : (new_subject (pySubject msg) issue
        ++ '\n' :: '\n' :: pyStrip (pyRest msg)).getLast?
        = (pyStrip (pyRest msg)).getLast? := by
      rw [getLast?_append_ne _ (by simp), getLast?_cons_ne _ (by simp),
        getLast?_cons_ne _ hB.2]
    rw [h1]
    cases hc : (pyStrip (pyRest msg)).getLast? with
    | none => rfl
    | some c =>
      have hws : isWS c = false := pyStrip_getLast_not_ws hc
      have : c ≠ '\n' := by
        intro hcc
        rw [hcc] at hws
        cases hws
      simpa using this
  · rw [if_neg hB, List.append_nil]
    unfold new_subject
    by_cases hm : matchesConv (pySubject msg) = true
    · rw [if_pos hm]
      cases hd : convDesc (pySubject msg) with
      | nil =>
        have e : convPfx (pySubject msg) ++ ' ' :: issue ++ ' ' :: ([] : List Char)
            = (convPfx (pySubject msg) ++ ' ' :: issue) ++ [ ' ' ] := by simp
        rw [e, List.getLast?_concat]
        rfl
      | cons d ds =>
        have h1 : (convPfx (pySubject msg) ++ ' ' :: issue ++ ' ' :: (d :: ds)).getLast?
            = (d :: ds).getLast? := by
          rw [getLast?_append_ne _ (by simp), getLast?_cons_ne _ (by simp)]
        rw [h1]
        cases hc : (d :: ds).getLast? with
        | none => rfl
        | some c =>
          have hmem : c ∈ convDesc (pySubject msg) := by
            rw [hd]
            exact mem_of_getLast?_eq hc
          have : c ≠ '\n' := pySubject_no_nl (mem_convDesc_subject hmem)
          simpa using this
    · rw [if_neg hm]
      cases hd : pySubject msg with
      | nil =>
        have e : [ 'c', 'h', 'o', 'r', 'e', ':' ] ++ ' ' :: issue ++ ' ' :: ([] : List Char)
            = ([ 'c', 'h', 'o', 'r', 'e', ':' ] ++ ' ' :: issue) ++ [ ' ' ] := by simp
        rw [e, List.getLast?_concat]
        rfl
      | cons d ds =>
        have h1 : ([ 'c', 'h', 'o', 'r', 'e', ':' ] ++ ' ' :: issue ++ ' ' :: (d :: ds)).getLast?
            = (d :: ds).getLast? := by
          rw [getLast?_append_ne _ (by simp), getLast?_cons_ne _ (by simp)]
        rw [h1]
        cases hc : (d :: ds).getLast? with
        | none => rfl
        | some c =>
          have hmem : c ∈ pySubject msg := by
            rw [hd]
            exact mem_of_getLast?_eq hc
          have : c ≠ '\n' := pySubject_no_nl hmem
          simpa using this

/-! ### Character facts about issue keys -/

theorem isIssue_mem_chars {t : List Char} (h : IsIssue t) :
    ∀ c ∈ t, isUC c = true ∨ c = '-' ∨ isDig c = true := by
  obtain ⟨L, D, rfl, hL, _, hD, _⟩ := h
  intro c hc
  rcases List.mem_append.1 hc with hcL | hcD
  · exact Or.inl (hL c hcL)
  · rcases List.mem_cons.1 hcD with hch | hcd
    · exact Or.inr (Or.inl hch)
    · exact Or.inr (Or.inr (hD c hcd))

theorem isIssue_no_nl {t : List Char} (h : IsIssue t) : '\n' ∉ t := by
  intro hmem
  rcases isIssue_mem_chars h '\n' hmem with h1 | h1 | h1
  · cases h1
  · cases h1
  · cases h1

theorem isIssue_no_space {t : List Char} (h : IsIssue t) : ' ' ∉ t := by
  intro hmem
  rcases isIssue_mem_chars h ' ' hmem with h1 | h1 | h1
  · cases h1
  · cases h1
  · cases h1

theorem isIssue_head_uc {t : List Char} (h : IsIssue t) :
    ∃ c cs, t = c :: cs ∧ isUC c = true := by
  obtain ⟨L, D, rfl, hL, hL2, _, _⟩ := h
  cases L with
  | nil => simp at hL2
  | cons x L' =>
    exact ⟨x, L' ++ '-' :: D, rfl, hL x (List.mem_cons_self x L')⟩

theorem isIssue_ne_nil {t : List Char} (h : IsIssue t) : t ≠ [] := by
  obtain ⟨c, cs, rfl, _⟩ := isIssue_head_uc h
  simp

/-! ### Body preservation (C6) -/

theorem mem_of_mem_takeWhile {p : Char → Bool} {l : List Char} {c : Char}
    (h : c ∈ l.takeWhile p) : c ∈ l := by
  rw [← List.takeWhile_append_dropWhile p l]
  exact List.mem_append_left _ h

theorem head?_append_ne {a : List Char} {c : Char} (b : List Char)
    (h : a.head? = some c) : (a ++ b).head? = some c := by
  cases a with
  | nil => cases h
  | cons x as => exact h

/-- A nonempty result of `pyStrip` starts with a non-whitespace character. -/
theorem pyStrip_head_not_ws {x : List Char} {c : Char}
    (h : (pyStrip x).head? = some c) : isWS c = false := by
  have hrew : lstripWS x = pyStrip x ++ ((lstripWS x).reverse.takeWhile isWS).reverse := by
    conv_lhs => rw [← List.reverse_reverse (lstripWS x),
      ← List.takeWhile_append_dropWhile isWS (lstripWS x).reverse]
    rw [List.reverse_append]
    rfl
  have hyh : (lstripWS x).head? = some c := by
    rw [hrew]
    exact head?_append_ne _ h
  exact dropWhile_head_false hyh

theorem no_nl_new_subject {msg issue : List Char} (hIss : '\n' ∉ issue) :
    '\n' ∉ new_subject (pySubject msg) issue := by
  intro hmem
  unfold new_subject at hmem
  by_cases hm : matchesConv (pySubject msg) = true
  · rw [if_pos hm] at hmem
    rcases List.mem_append.1 hmem with h1 | h1
    · rcases List.mem_append.1 h1 with h2 | h2
      · unfold convPfx at h2
        rcases List.mem_append.1 h2 with h3 | h3
        · exact pySubject_no_nl (mem_of_mem_takeWhile h3) rfl
        · simp at h3
      · rcases List.mem_cons.1 h2 with h3 | h3
        · cases h3
        · exact hIss h3
    · rcases List.mem_cons.1 h1 with h2 | h2
      · cases h2
      · exact pySubject_no_nl (mem_convDesc_subject h2) rfl
  · rw [if_neg hm] at hmem
    rcases List.mem_append.1 hmem with h1 | h1
    · rcases List.mem_append.1 h1 with h2 | h2
      · simp at h2
      · rcases List.mem_cons.1 h2 with h3 | h3
        · cases h3
        · exact hIss h3
    · rcases List.mem_cons.1 h1 with h2 | h2
      · cases h2
      · exact pySubject_no_nl h2 rfl

/-- Claim C6: for a message with a nonempty body, the rewriter leaves the
body text (the trimmed remainder after the subject line) unchanged,
separated from the new subject by exactly one blank line: the output is
the single-line new subject, a line break, an empty line, and the body
text, which starts with a non-line-break character. -/
theorem claim6 (msg issue : List Char) (hIss : '\n' ∉ issue)
    (hs : hasSecond msg = true) (hb : pyStrip (pyRest msg) ≠ []) :
    append_jira_issue msg issue
      = new_subject (pySubject msg) issue ++ '\n' :: '\n' :: pyStrip (pyRest msg)
    ∧ '\n' ∉ new_subject (pySubject msg) issue
    ∧ ((pyStrip (pyRest msg)).head? == some '\n') = false := by
  refine ⟨?_, no_nl_new_subject hIss, ?_⟩
  · unfold append_jira_issue pyBody
    rw [if_pos ⟨hs, hb⟩]
  · cases hc : (pyStrip (pyRest msg)).head? with
    | none => rfl
    | some c =>
      have hws : isWS c = false := pyStrip_head_not_ws hc
      have : c ≠ '\n' := by
        intro hcc
        rw [hcc] at hws
        cases hws
      simpa using this

/-- Witness for C6 at the spec's example `"fix: bug\n\nDetails here"` with
issue `"X-1"`; additionally evaluates the output to
`"fix: X-1 bug\n\nDetails here"`. -/
theorem claim6_witness :
    (append_jira_issue
        [ 'f', 'i', 'x', ':', ' ', 'b', 'u', 'g', '\n', '\n', 'D', 'e', 't', 'a', 'i', 'l', 's' ]
        [ 'X', '-', '1' ]
      = new_subject
          (pySubject
            [ 'f', 'i', 'x', ':', ' ', 'b', 'u', 'g', '\n', '\n', 'D', 'e', 't', 'a', 'i', 'l', 's' ])
          [ 'X', '-', '1' ]
        ++ '\n' :: '\n' :: pyStrip (pyRest
          [ 'f', 'i', 'x', ':', ' ', 'b', 'u', 'g', '\n', '\n', 'D', 'e', 't', 'a', 'i', 'l', 's' ])
    ∧ '\n' ∉ new_subject
        (pySubject
          [ 'f', 'i', 'x', ':', ' ', 'b', 'u', 'g', '\n', '\n', 'D', 'e', 't', 'a', 'i', 'l', 's' ])
        [ 'X', '-', '1' ]
    ∧ ((pyStrip (pyRest
          [ 'f', 'i', 'x', ':', ' ', 'b', 'u', 'g', '\n', '\n', 'D', 'e', 't', 'a', 'i', 'l', 's' ])).head?
        == some '\n') = false) ∧
    append_jira_issue
        [ 'f', 'i', 'x', ':', ' ', 'b', 'u', 'g', '\n', '\n', 'D', 'e', 't', 'a', 'i', 'l', 's' ]
        [ 'X', '-', '1' ]
      = [ 'f', 'i', 'x', ':', ' ', 'X', '-', '1', ' ', 'b', 'u', 'g', '\n', '\n',
          'D', 'e', 't', 'a', 'i', 'l', 's' ] :=
  ⟨claim6 _ _ (by decide) (by decide) (by decide), by decide⟩

/-! ### Occurrence chains into the original message (for C3) -/

theorem occ_takeWhile (p : Char → Bool) (l : List Char) : Occ (l.takeWhile p) l :=
  ⟨[], l.dropWhile p, by rw [List.nil_append, List.takeWhile_append_dropWhile]⟩

theorem occ_dropWhile (p : Char → Bool) (l : List Char) : Occ (l.dropWhile p) l :=
  ⟨l.takeWhile p, [], by rw [List.append_nil, List.takeWhile_append_dropWhile]⟩

theorem occ_drop (n : Nat) (l : List Char) : Occ (l.drop n) l :=
  ⟨l.take n, [], by rw [List.append_nil, List.take_append_drop]⟩

theorem rstrip_decomp (y : List Char) :
    y = rstripWS y ++ (y.reverse.takeWhile isWS).reverse := by
  conv_lhs => rw [← List.reverse_reverse y,
    ← List.takeWhile_append_dropWhile isWS y.reverse]
  rw [List.reverse_append]
  rfl

theorem occ_rstrip (y : List Char) : Occ (rstripWS y) y :=
  ⟨[], (y.reverse.takeWhile isWS).reverse, by rw [List.nil_append, ← rstrip_decomp]⟩

theorem occ_pyStrip (x : List Char) : Occ (pyStrip x) x :=
  occ_trans (occ_rstrip (lstripWS x)) (occ_dropWhile isWS x)

theorem occ_pySubject (msg : List Char) : Occ (pySubject msg) msg :=
  occ_trans (occ_takeWhile _ (pyStrip msg)) (occ_pyStrip msg)

theorem occ_pyBodyText (msg : List Char) : Occ (pyStrip (pyRest msg)) msg :=
  occ_trans (occ_pyStrip (pyRest msg))
    (occ_trans (occ_drop 1 _) (occ_trans (occ_dropWhile _ (pyStrip msg)) (occ_pyStrip msg)))

theorem occ_convDesc (msg : List Char) : Occ (convDesc (pySubject msg)) msg :=
  occ_trans (occ_dropWhile isWS _)
    (occ_trans (occ_drop 1 _)
      (occ_trans (occ_dropWhile _ (pySubject msg)) (occ_pySubject msg)))

theorem colon_decomp : ∀ {S : List Char}, ':' ∈ S →
    S = S.takeWhile (fun c => c != ':')
      ++ ':' :: ((S.dropWhile (fun c => c != ':')).drop 1) := by
  intro S
  induction S with
  | nil => intro h; cases h
  | cons c cs ih =>
    intro h
    by_cases hc : c = ':'
    · subst hc
      simp [List.takeWhile_cons, List.dropWhile_cons]
    · have hmem : ':' ∈ cs := by
        rcases List.mem_cons.1 h with h1 | h1
        · exact absurd h1.symm hc
        · exact h1
      have hbne : (c != ':') = true := by simpa [bne_iff_ne] using hc
      rw [List.takeWhile_cons, if_pos hbne, List.dropWhile_cons, if_pos hbne,
        List.cons_append]
      rw [← ih hmem]

theorem colon_mem_of_matchesConv {S : List Char} (hm : matchesConv S = true) :
    ':' ∈ S := by
  obtain ⟨ty, _, rest, rfl, hcase⟩ := (matchesConv_iff _).1 hm
  rcases hcase with ⟨r, rfl⟩ | ⟨u, v, rfl, _⟩
  · exact List.mem_append_right ty (List.mem_cons_self ':' r)
  · refine List.mem_append_right ty ?_
    refine List.mem_cons_of_mem '(' ?_
    refine List.mem_append_right u ?_
    exact List.mem_cons_of_mem ')' (List.mem_cons_self ':' v)

theorem occ_convPfx {msg : List Char} (hm : matchesConv (pySubject msg) = true) :
    Occ (convPfx (pySubject msg)) msg := by
  have hmem : ':' ∈ pySubject msg := colon_mem_of_matchesConv hm
  have hdec := colon_decomp hmem
  have : Occ (convPfx (pySubject msg)) (pySubject msg) := by
    refine ⟨[], (((pySubject msg).dropWhile (fun c => c != ':')).drop 1), ?_⟩
    rw [List.nil_append]
    unfold convPfx
    rw [List.append_assoc, List.singleton_append]
    exact hdec
  exact occ_trans this (occ_pySubject msg)

theorem occCount_nil_eq {issue : List Char} (h : issue ≠ []) :
    occCount issue [] = 0 := by
  cases issue with
  | nil => cases h rfl
  | cons c cs => rfl

theorem occCount_assembly {issue : List Char} (hne : issue ≠ []) (hsp : ' ' ∉ issue)
    (A B : List Char) (hA : occCount issue A = 0) (hB : occCount issue B = 0) :
    occCount issue (A ++ ' ' :: (issue ++ ' ' :: B)) = 1 := by
  rw [occCount_append_cons hne hsp A (issue ++ ' ' :: B),
    occCount_append_cons hne hsp issue B, hA, hB, occCount_self hne]

/-- Counterexample to C3 as stated: the rewriter is quantified there over
all messages and keys, but a message that already contains the key text
yields two occurrences. -/
theorem claim3_counterexample :
    occCount [ 'A', 'B', '-', '1' ]
      (append_jira_issue [ 'A', 'B', '-', '1' ] [ 'A', 'B', '-', '1' ]) = 2 := by
  decide

/-- Claim C3 (amended): for every message in which the extractor finds no
issue key (the only situation in which the pipeline invokes the rewriter)
and every key of the pattern shape, the output contains exactly one
occurrence of the key, placed right after the recognized prefix or after
the synthesized `chore:` prefix. -/
theorem claim3 (msg issue : List Char) (hIss : IsIssue issue)
    (hnone : extract_jira_issue msg = none) :
    occCount issue (append_jira_issue msg issue) = 1
    ∧ ∃ tail, append_jira_issue msg issue
        = (if matchesConv (pySubject msg) = true then convPfx (pySubject msg)
            else [ 'c', 'h', 'o', 'r', 'e', ':' ]) ++ ' ' :: issue ++ ' ' :: tail := by
  have hne := isIssue_ne_nil hIss
  have hsp := isIssue_no_space hIss
  have hnl := isIssue_no_nl hIss
  have hz : ∀ X : List Char, Occ X msg → occCount issue X = 0 := by
    intro X hX
    rw [occCount_eq_zero_iff hne]
    intro hOcc
    exact occ_extract_ne_none hIss (occ_trans hOcc hX) hnone
  have hchore : occCount issue [ 'c', 'h', 'o', 'r', 'e', ':' ] = 0 := by
    rw [occCount_eq_zero_iff hne]
    intro hOcc
    obtain ⟨c, cs, heq, hc⟩ := isIssue_head_uc hIss
    have hcm : c ∈ [ 'c', 'h', 'o', 'r', 'e', ':' ] :=
      mem_of_occ hOcc (heq ▸ List.mem_cons_self c cs)
    have hf : isUC c = false := by
      simp at hcm
      rcases hcm with rfl | rfl | rfl | rfl | rfl | rfl <;> decide
    rw [hf] at hc
    cases hc
  have hwithbody : ∀ X : List Char, occCount issue X = 0 →
      occCount issue (X ++ pyBody msg) = 0 := by
    intro X hX
    unfold pyBody
    split
    · rw [occCount_append_cons hne hnl X ('\n' :: pyStrip (pyRest msg)), hX]
      have e2 : occCount issue ('\n' :: pyStrip (pyRest msg))
          = occCount issue ([] ++ '\n' :: pyStrip (pyRest msg)) := rfl
      rw [e2, occCount_append_cons hne hnl [] (pyStrip (pyRest msg)),
        occCount_nil_eq hne, hz _ (occ_pyBodyText msg)]
    · rw [List.append_nil]
      exact hX
  constructor
  · unfold append_jira_issue new_subject
    by_cases hm : matchesConv (pySubject msg) = true
    · rw [if_pos hm]
      have eshape : (convPfx (pySubject msg) ++ ' ' :: issue
            ++ ' ' :: convDesc (pySubject msg)) ++ pyBody msg
          = convPfx (pySubject msg)
            ++ ' ' :: (issue ++ ' ' :: (convDesc (pySubject msg) ++ pyBody msg)) := by
        simp [List.append_assoc]
      rw [eshape]
      exact occCount_assembly hne hsp _ _ (hz _ (occ_convPfx hm))
        (hwithbody _ (hz _ (occ_convDesc msg)))
    · rw [if_neg hm]
      have eshape : (([ 'c', 'h', 'o', 'r', 'e', ':' ] : List Char) ++ ' ' :: issue
            ++ ' ' :: pySubject msg) ++ pyBody msg
          = [ 'c', 'h', 'o', 'r', 'e', ':' ]
            ++ ' ' :: (issue ++ ' ' :: (pySubject msg ++ pyBody msg)) := by
        simp [List.append_assoc]
      rw [eshape]
      exact occCount_assembly hne hsp _ _ hchore
        (hwithbody _ (hz _ (occ_pySubject msg)))
  · by_cases hm : matchesConv (pySubject msg) = true
    · refine ⟨convDesc (pySubject msg) ++ pyBody msg, ?_⟩
      rw [if_pos hm]
      unfold append_jira_issue new_subject
      rw [if_pos hm]
      simp [List.append_assoc]
    · refine ⟨pySubject msg ++ pyBody msg, ?_⟩
      rw [if_neg hm]
      unfold append_jira_issue new_subject
      rw [if_neg hm]
      simp [List.append_assoc]

/-- Witness for C3 (amended) at message `"hi"` (no key present) and key
`"AB-1"`: exactly one occurrence, after the synthesized prefix. -/
theorem claim3_witness :
    occCount [ 'A', 'B', '-', '1' ] (append_jira_issue [ 'h', 'i' ] [ 'A', 'B', '-', '1' ]) = 1
    ∧ ∃ tail, append_jira_issue [ 'h', 'i' ] [ 'A', 'B', '-', '1' ]
        = (if matchesConv (pySubject [ 'h', 'i' ]) = true then convPfx (pySubject [ 'h', 'i' ])
            else [ 'c', 'h', 'o', 'r', 'e', ':' ]) ++ ' ' :: [ 'A', 'B', '-', '1' ] ++ ' ' :: tail :=
  claim3 [ 'h', 'i' ] [ 'A', 'B', '-', '1' ]
    ⟨[ 'A', 'B' ], [ '1' ], rfl, by decide, by decide, by decide, by decide⟩ rfl

/-! ### Line structure of files and of the comment-stripped message -/

/-- The line ends with a line break. -/
def EndsNL (l : List Char) : Prop := ∃ a, l = a ++ [ '\n' ]

/-- Every line except possibly the last ends with a line break. -/
def NLTerm : List (List Char) → Prop
  | [] => True
  | [_] => True
  | l :: l₂ :: ls => EndsNL l ∧ NLTerm (l₂ :: ls)

theorem nlterm_cons {l : List Char} {ls : List (List Char)}
    (h1 : EndsNL l) (h2 : NLTerm ls) : NLTerm (l :: ls) := by
  cases ls with
  | nil => trivial
  | cons x xs => exact ⟨h1, h2⟩

theorem nlterm_fileLines : ∀ s : List Char, NLTerm (fileLines s) := by
  intro s
  induction s with
  | nil => trivial
  | cons c cs ih =>
    by_cases hc : c = '\n'
    · simp only [fileLines, if_pos hc]
      exact nlterm_cons ⟨[], rfl⟩ ih
    · simp only [fileLines, if_neg hc]
      cases hf : fileLines cs with
      | nil => trivial
      | cons l ls =>
        rw [hf] at ih
        cases ls with
        | nil => trivial
        | cons l₂ ls' =>
          obtain ⟨⟨a, ha⟩, hrest⟩ := ih
          exact ⟨⟨c :: a, by rw [ha]; rfl⟩, hrest⟩

theorem nlterm_filter (P : List Char → Bool) :
    ∀ ls : List (List Char), NLTerm ls → NLTerm (ls.filter P) := by
  intro ls
  induction ls with
  | nil => intro _; trivial
  | cons l rest ih =>
    intro h
    cases rest with
    | nil =>
      rw [List.filter_cons]
      by_cases hP : P l = true
      · rw [if_pos hP]
        trivial
      · rw [if_neg hP]
        trivial
    | cons l₂ ls' =>
      obtain ⟨hE, hrest⟩ := h
      have ih' := ih hrest
      rw [List.filter_cons]
      by_cases hP : P l = true
      · rw [if_pos hP]
        exact nlterm_cons hE ih'
      · rw [if_neg hP]
        exact ih'

/-- A line-break-free pattern occurring in the concatenation of lines, of
which all but the last end in a line break, occurs inside one line. -/
theorem occ_flatten_nlterm {t : List Char} (htne : t ≠ []) (hnl : '\n' ∉ t) :
    ∀ ls : List (List Char), NLTerm ls → Occ t ls.flatten → ∃ l ∈ ls, Occ t l := by
  intro ls
  induction ls with
  | nil =>
    intro _ hOcc
    obtain ⟨u, v, huv⟩ := hOcc
    exfalso
    obtain ⟨h1, _⟩ := List.append_eq_nil.1 huv.symm
    obtain ⟨_, h3⟩ := List.append_eq_nil.1 h1
    exact htne h3
  | cons l rest ih =>
    intro hN hOcc
    rw [List.flatten_cons] at hOcc
    cases rest with
    | nil =>
      rw [List.flatten_nil, List.append_nil] at hOcc
      exact ⟨l, by simp, hOcc⟩
    | cons l₂ ls' =>
      obtain ⟨⟨a, ha⟩, hrest⟩ := hN
      rw [ha, List.append_assoc, List.singleton_append] at hOcc
      have hpos : 0 < occCount t (a ++ '\n' :: (l₂ :: ls').flatten) :=
        (occCount_pos_iff htne _).2 hOcc
      rw [occCount_append_cons htne hnl a _] at hpos
      by_cases hA : 0 < occCount t a
      · refine ⟨l, by simp, ?_⟩
        rw [ha]
        exact occ_append_left ((occCount_pos_iff htne a).1 hA) _
      · have h2 : 0 < occCount t (l₂ :: ls').flatten := by omega
        obtain ⟨l', hmem, hOcc'⟩ := ih hrest ((occCount_pos_iff htne _).1 h2)
        exact ⟨l', List.mem_cons_of_mem l hmem, hOcc'⟩

/-- Claim C8: branch-name resolution is total over every outcome of the
underlying git command, and every failure yields the empty string. -/
theorem claim8 (r : CmdResult) :
    (∃ s : List Char, get_branch_name r = s)
    ∧ get_branch_name CmdResult.failure = [] :=
  ⟨⟨get_branch_name r, rfl⟩, rfl⟩

theorem mainRun_nobranch {branch : List Char} (contents : List Char)
    (hb : extract_jira_issue branch = none) :
    mainRun branch contents = (0, contents) := by
  unfold mainRun
  rw [hb]

theorem mainRun_merge {branch contents issue : List Char}
    (hb : extract_jira_issue branch = some issue)
    (hM : isPrefB [ 'M', 'e', 'r', 'g', 'e', ' ' ] (get_commit_msg contents) = true) :
    mainRun branch contents = (0, contents) := by
  unfold mainRun
  rw [hb]
  show (if isPrefB [ 'M', 'e', 'r', 'g', 'e', ' ' ] (get_commit_msg contents) = true
      then ((0 : Nat), contents)
      else match extract_jira_issue (get_commit_msg contents) with
        | some _ => ((0 : Nat), contents)
        | none => ((0 : Nat), append_jira_issue (get_commit_msg contents) issue))
    = ((0 : Nat), contents)
  rw [if_pos hM]

theorem mainRun_already {branch contents issue r : List Char}
    (hb : extract_jira_issue branch = some issue)
    (hg : extract_jira_issue (get_commit_msg contents) = some r) :
    mainRun branch contents = (0, contents) := by
  unfold mainRun
  rw [hb]
  show (if isPrefB [ 'M', 'e', 'r', 'g', 'e', ' ' ] (get_commit_msg contents) = true
      then ((0 : Nat), contents)
      else match extract_jira_issue (get_commit_msg contents) with
        | some _ => ((0 : Nat), contents)
        | none => ((0 : Nat), append_jira_issue (get_commit_msg contents) issue))
    = ((0 : Nat), contents)
  by_cases hM : isPrefB [ 'M', 'e', 'r', 'g', 'e', ' ' ] (get_commit_msg contents) = true
  · rw [if_pos hM]
  · rw [if_neg hM, hg]

theorem mainRun_rewrite {branch contents issue : List Char}
    (hb : extract_jira_issue branch = some issue)
    (hM : isPrefB [ 'M', 'e', 'r', 'g', 'e', ' ' ] (get_commit_msg contents) = false)
    (hg : extract_jira_issue (get_commit_msg contents) = none) :
    mainRun branch contents = (0, append_jira_issue (get_commit_msg contents) issue) := by
  unfold mainRun
  rw [hb]
  show (if isPrefB [ 'M', 'e', 'r', 'g', 'e', ' ' ] (get_commit_msg contents) = true
      then ((0 : Nat), contents)
      else match extract_jira_issue (get_commit_msg contents) with
        | some _ => ((0 : Nat), contents)
        | none => ((0 : Nat), append_jira_issue (get_commit_msg contents) issue))
    = ((0 : Nat), append_jira_issue (get_commit_msg contents) issue)
  rw [if_neg (by rw [hM]; intro hcon; cases hcon), hg]

/-- Claim C4: the entry point always returns exit code 0; on any of the
three skip conditions the file contents are unchanged, and otherwise the
written contents are the rewritten message. -/
theorem claim4 (branch contents : List Char) :
    (mainRun branch contents).1 = 0
    ∧ ((extract_jira_issue branch = none
        ∨ isPrefB [ 'M', 'e', 'r', 'g', 'e', ' ' ] (get_commit_msg contents) = true
        ∨ extract_jira_issue (get_commit_msg contents) ≠ none) →
          (mainRun branch contents).2 = contents)
    ∧ (∀ issue, extract_jira_issue branch = some issue →
        isPrefB [ 'M', 'e', 'r', 'g', 'e', ' ' ] (get_commit_msg contents) = false →
        extract_jira_issue (get_commit_msg contents) = none →
        (mainRun branch contents).2
          = append_jira_issue (get_commit_msg contents) issue) := by
  cases hb : extract_jira_issue branch with
  | none =>
    rw [mainRun_nobranch contents hb]
    refine ⟨rfl, fun _ => rfl, ?_⟩
    intro issue h1 _ _
    cases h1
  | some issue0 =>
    by_cases hM : isPrefB [ 'M', 'e', 'r', 'g', 'e', ' ' ] (get_commit_msg contents) = true
    · rw [mainRun_merge hb hM]
      refine ⟨rfl, fun _ => rfl, ?_⟩
      intro issue _ h2 _
      rw [hM] at h2
      cases h2
    · have hM' : isPrefB [ 'M', 'e', 'r', 'g', 'e', ' ' ] (get_commit_msg contents) = false := by
        cases h : isPrefB [ 'M', 'e', 'r', 'g', 'e', ' ' ] (get_commit_msg contents)
        · rfl
        · exact absurd h hM
      cases hg : extract_jira_issue (get_commit_msg contents) with
      | some r =>
        rw [mainRun_already hb hg]
        refine ⟨rfl, fun _ => rfl, ?_⟩
        intro issue _ _ h3
        cases h3
      | none =>
        rw [mainRun_rewrite hb hM' hg]
        refine ⟨rfl, ?_, ?_⟩
        · intro hdisj
          rcases hdisj with h | h | h
          · cases h
          · exact absurd h hM
          · exact absurd rfl h
        · intro issue h1 _ _
          injection h1 with he
          rw [he]

/-- Witness for C4: with no issue key in the branch, the run exits 0 and
leaves the file contents unchanged. -/
theorem claim4_witness :
    (mainRun [ 'x' ] [ 'h', 'i' ]).1 = 0
    ∧ (mainRun [ 'x' ] [ 'h', 'i' ]).2 = [ 'h', 'i' ] :=
  ⟨(claim4 [ 'x' ] [ 'h', 'i' ]).1,
    (claim4 [ 'x' ] [ 'h', 'i' ]).2.1 (Or.inl (by decide))⟩

/-! ### Shape of the rewritten message as a file (for C7 and C10) -/

theorem isPrefB_single {c : Char} {l : List Char} :
    isPrefB [ c ] l = true ↔ l.head? = some c := by
  cases l with
  | nil => simp [isPrefB]
  | cons b bs =>
    have e : isPrefB [ c ] (b :: bs) = (c == b && isPrefB [] bs) := rfl
    rw [e]
    simp [isPrefB]
    constructor
    · intro h
      exact h.symm
    · intro h
      exact h.symm

theorem convTypes_head : ∀ ty ∈ convTypes,
    ty ≠ [] ∧ Option.all (fun x => (x != '#') && (x != ':')) ty.head? = true := by
  decide

theorem new_subject_ne_nil (S issue : List Char) : new_subject S issue ≠ [] := by
  unfold new_subject
  split
  · simp
  · simp

/-- The key occurs in the rewritten subject line. -/
theorem occ_issue_new_subject (S issue : List Char) :
    Occ issue (new_subject S issue) := by
  unfold new_subject
  split
  · exact ⟨convPfx S ++ [ ' ' ], ' ' :: convDesc S, by simp⟩
  · exact ⟨[ 'c', 'h', 'o', 'r', 'e', ':', ' ' ], ' ' :: S, by simp⟩

theorem new_subject_head_ne_hash (S issue : List Char) :
    (new_subject S issue).head? ≠ some '#' := by
  unfold new_subject
  by_cases hm : matchesConv S = true
  · rw [if_pos hm]
    obtain ⟨ty, hty, rest, rfl, _⟩ := (matchesConv_iff _).1 hm
    obtain ⟨htyne, hthead⟩ := convTypes_head ty hty
    cases ty with
    | nil => cases htyne rfl
    | cons x ty' =>
      have hx : (x != '#') = true ∧ (x != ':') = true := by
        simpa [Option.all, Bool.and_eq_true] using hthead
      have e1 : convPfx ((x :: ty') ++ rest)
          = x :: ((ty' ++ rest).takeWhile (fun c => c != ':') ++ [ ':' ]) := by
        unfold convPfx
        rw [List.cons_append, List.takeWhile_cons, if_pos hx.2]
        rfl
      rw [e1, List.cons_append, List.cons_append]
      intro hcon
      simp at hcon
      rw [hcon] at hx
      have := hx.1
      simp at this
  · rw [if_neg hm]
    intro hcon
    have e : (([ 'c', 'h', 'o', 'r', 'e', ':' ] : List Char) ++ ' ' :: issue
        ++ ' ' :: S).head? = some 'c' := rfl
    rw [e] at hcon
    exact absurd hcon (by decide)

theorem fileLines_append_nl (rest : List Char) :
    ∀ a : List Char, '\n' ∉ a →
      fileLines (a ++ '\n' :: rest) = (a ++ [ '\n' ]) :: fileLines rest := by
  intro a
  induction a with
  | nil =>
    intro _
    simp [fileLines]
  | cons c a' ih =>
    intro ha
    have hc : c ≠ '\n' := fun h => ha (h ▸ List.mem_cons_self c a')
    have ha' : '\n' ∉ a' := fun h => ha (List.mem_cons_of_mem c h)
    rw [List.cons_append]
    simp only [fileLines, if_neg hc]
    rw [ih ha']
    rfl

theorem fileLines_no_nl : ∀ {l : List Char}, '\n' ∉ l → l ≠ [] → fileLines l = [ l ] := by
  intro l
  induction l with
  | nil =>
    intro _ h
    cases h rfl
  | cons c cs ih =>
    intro hnl _
    have hc : c ≠ '\n' := fun h => hnl (h ▸ List.mem_cons_self c cs)
    simp only [fileLines, if_neg hc]
    by_cases hcs : cs = []
    · subst hcs
      rfl
    · rw [ih (fun h => hnl (List.mem_cons_of_mem c h)) hcs]

/-- Claim C10: if every line of the commit-message file that carries an
issue-key match starts with `#`, the already-contains-issue skip does not
trigger (the loader removes those lines first), and on a branch with a key
and a non-merge message the rewritten, comment-stripped message is
written. -/
theorem claim10 (contents branch : List Char)
    (h : ∀ l ∈ fileLines contents, isPrefB [ '#' ] l = false →
      extract_jira_issue l = none) :
    extract_jira_issue (get_commit_msg contents) = none
    ∧ ∀ issue, extract_jira_issue branch = some issue →
        isPrefB [ 'M', 'e', 'r', 'g', 'e', ' ' ] (get_commit_msg contents) = false →
        mainRun branch contents
          = (0, append_jira_issue (get_commit_msg contents) issue) := by
  have hnone : extract_jira_issue (get_commit_msg contents) = none := by
    cases hE : extract_jira_issue (get_commit_msg contents) with
    | none => rfl
    | some r =>
      exfalso
      obtain ⟨hIr, p, hp, _⟩ := extract_some hE
      have hOcc : Occ r (get_commit_msg contents) :=
        (occ_iff_drop _ _).2 ⟨p, hp⟩
      unfold get_commit_msg at hOcc
      obtain ⟨l, hmem, hOl⟩ :=
        occ_flatten_nlterm (isIssue_ne_nil hIr) (isIssue_no_nl hIr) _
          (nlterm_filter _ _ (nlterm_fileLines contents)) hOcc
      rw [List.mem_filter] at hmem
      have hns : isPrefB [ '#' ] l = false := by
        have h2 := hmem.2
        simp only [Bool.not_eq_eq_eq_not, Bool.not_true] at h2
        exact h2
      exact occ_extract_ne_none hIr hOl (h l hmem.1 hns)
  exact ⟨hnone, fun issue hb hM => mainRun_rewrite hb hM hnone⟩

/-- Witness for C10: a file whose only key `AB-1` sits on a `#` comment
line is rewritten (here from branch key `XY-2`). -/
theorem claim10_witness :
    extract_jira_issue (get_commit_msg
        [ '#', 'A', 'B', '-', '1', '\n', 'h', 'i', '\n' ]) = none
    ∧ ∀ issue, extract_jira_issue [ 'X', 'Y', '-', '2' ] = some issue →
        isPrefB [ 'M', 'e', 'r', 'g', 'e', ' ' ]
          (get_commit_msg [ '#', 'A', 'B', '-', '1', '\n', 'h', 'i', '\n' ]) = false →
        mainRun [ 'X', 'Y', '-', '2' ] [ '#', 'A', 'B', '-', '1', '\n', 'h', 'i', '\n' ]
          = (0, append_jira_issue
              (get_commit_msg [ '#', 'A', 'B', '-', '1', '\n', 'h', 'i', '\n' ]) issue) :=
  claim10 [ '#', 'A', 'B', '-', '1', '\n', 'h', 'i', '\n' ] [ 'X', 'Y', '-', '2' ]
    (by decide)

/-- The rewritten message still contains its issue key after comment
stripping: the key sits on the first line, which does not start with `#`. -/
theorem occ_issue_stripped_rewrite {M issue : List Char} (hIss : IsIssue issue) :
    Occ issue (get_commit_msg (append_jira_issue M issue)) := by
  have hNSnl : '\n' ∉ new_subject (pySubject M) issue :=
    no_nl_new_subject (isIssue_no_nl hIss)
  have hNSne : new_subject (pySubject M) issue ≠ [] := new_subject_ne_nil _ _
  have hhash : (new_subject (pySubject M) issue).head? ≠ some '#' :=
    new_subject_head_ne_hash _ _
  have hOccNS : Occ issue (new_subject (pySubject M) issue) :=
    occ_issue_new_subject _ _
  unfold append_jira_issue pyBody
  by_cases hB : hasSecond M = true ∧ pyStrip (pyRest M) ≠ []
  · rw [if_pos hB]
    have hfl : fileLines (new_subject (pySubject M) issue
          ++ '\n' :: ('\n' :: pyStrip (pyRest M)))
        = (new_subject (pySubject M) issue ++ [ '\n' ])
          :: fileLines ('\n' :: pyStrip (pyRest M)) :=
      fileLines_append_nl _ _ hNSnl
    unfold get_commit_msg
    rw [hfl, List.filter_cons, if_pos ?hkeep]
    case hkeep =>
      cases hNS : new_subject (pySubject M) issue with
      | nil => cases hNSne hNS
      | cons c cs =>
        have hch : c ≠ '#' := by
          intro hcc
          apply hhash
          rw [hNS, hcc]
          rfl
        simp only [Bool.not_eq_eq_eq_not, Bool.not_true]
        cases hpb : isPrefB [ '#' ] ((c :: cs) ++ [ '\n' ]) with
        | false => rfl
        | true =>
          exfalso
          have := isPrefB_single.1 hpb
          have : c = '#' := by simpa using this
          exact hch this
    rw [List.flatten_cons]
    exact occ_append_left (occ_append_left hOccNS _) _
  · rw [if_neg hB, List.append_nil]
    have hfl : fileLines (new_subject (pySubject M) issue)
        = [ new_subject (pySubject M) issue ] := fileLines_no_nl hNSnl hNSne
    unfold get_commit_msg
    rw [hfl, List.filter_cons, if_pos ?hkeep2]
    case hkeep2 =>
      cases hNS : new_subject (pySubject M) issue with
      | nil => cases hNSne hNS
      | cons c cs =>
        have hch : c ≠ '#' := by
          intro hcc
          apply hhash
          rw [hNS, hcc]
          rfl
        simp only [Bool.not_eq_eq_eq_not, Bool.not_true]
        cases hpb : isPrefB [ '#' ] (c :: cs) with
        | false => rfl
        | true =>
          exfalso
          have h1 := isPrefB_single.1 hpb
          have : c = '#' := by simpa using h1
          exact hch this
    rw [List.flatten_cons]
    exact occ_append_left hOccNS _

/-- Claim C7: whenever the pipeline performs a rewrite, the rewritten
message contains an issue-key match, so a second invocation of the entry
point on the rewritten message skips and leaves it unchanged. -/
theorem claim7 (branch contents issue : List Char)
    (hb : extract_jira_issue branch = some issue)
    (_hM : isPrefB [ 'M', 'e', 'r', 'g', 'e', ' ' ] (get_commit_msg contents) = false)
    (_hn : extract_jira_issue (get_commit_msg contents) = none) :
    extract_jira_issue
        (get_commit_msg (append_jira_issue (get_commit_msg contents) issue)) ≠ none
    ∧ mainRun branch (append_jira_issue (get_commit_msg contents) issue)
        = (0, append_jira_issue (get_commit_msg contents) issue) := by
  have hIss : IsIssue issue := (extract_some hb).1
  have hOcc : Occ issue
      (get_commit_msg (append_jira_issue (get_commit_msg contents) issue)) :=
    occ_issue_stripped_rewrite hIss
  have hne : extract_jira_issue
      (get_commit_msg (append_jira_issue (get_commit_msg contents) issue)) ≠ none :=
    occ_extract_ne_none hIss hOcc
  refine ⟨hne, ?_⟩
  by_cases hM2 : isPrefB [ 'M', 'e', 'r', 'g', 'e', ' ' ]
      (get_commit_msg (append_jira_issue (get_commit_msg contents) issue)) = true
  · exact mainRun_merge hb hM2
  · cases hE : extract_jira_issue
        (get_commit_msg (append_jira_issue (get_commit_msg contents) issue)) with
    | none => exact absurd hE hne
    | some r => exact mainRun_already hb hE

/-- Witness for C7: branch `"AB-12"`, file `"hello\n"`; the rewrite embeds
`AB-12`, and a second run leaves the rewritten file unchanged. -/
theorem claim7_witness :
    extract_jira_issue
        (get_commit_msg (append_jira_issue
          (get_commit_msg [ 'h', 'e', 'l', 'l', 'o', '\n' ]) [ 'A', 'B', '-', '1', '2' ])) ≠ none
    ∧ mainRun [ 'A', 'B', '-', '1', '2' ]
        (append_jira_issue
          (get_commit_msg [ 'h', 'e', 'l', 'l', 'o', '\n' ]) [ 'A', 'B', '-', '1', '2' ])
        = (0, append_jira_issue
            (get_commit_msg [ 'h', 'e', 'l', 'l', 'o', '\n' ]) [ 'A', 'B', '-', '1', '2' ]) :=
  claim7 [ 'A', 'B', '-', '1', '2' ] [ 'h', 'e', 'l', 'l', 'o', '\n' ]
    [ 'A', 'B', '-', '1', '2' ] (by decide) (by decide) (by decide)
